import Mathlib

/-!
Verification of the EigenKor admin panel's core client logic, shallowly
embedded in Lean: symbol-list reconciliation (dedup by composite key),
bulk-upload parsing, the authenticated-route gate, the request
interceptor, the debounced search gate, and the mutation
cache-invalidation discipline.
-/

/-- An entry of the ingestion list, as in the repository's types module:
symbol code, exchange, description, security type. -/
structure IngestedSymbol where
  symbol : String
  exchange : String
  description : String
  securityType : String
deriving DecidableEq, Repr

/-- The dedup key built by handleBulkUpload and handleAddSymbol:
the template string item.symbol-item.exchange. -/
def keyOf (e : IngestedSymbol) : String :=
  e.symbol ++ "-" ++ e.exchange

/-- JavaScript Map.set on an association list kept in insertion order:
if the key is already present its value is replaced in place, otherwise
the pair is appended at the end. -/
def mapSet : List (String × IngestedSymbol) → String → IngestedSymbol →
    List (String × IngestedSymbol)
  | [], k, v => [(k, v)]
  | p :: rest, k, v =>
      if p.1 = k then (k, v) :: rest else p :: mapSet rest k v

/-- JavaScript Map.get: first entry with the key, if any. -/
def mapLookup (m : List (String × IngestedSymbol)) (k : String) :
    Option IngestedSymbol :=
  (m.find? (fun p => p.1 == k)).map Prod.snd

/-- new Map(l.map(item => [keyOf item, item])): inserts every pair in
list order, later occurrences of a key overwriting earlier values. -/
def buildMap (l : List IngestedSymbol) : List (String × IngestedSymbol) :=
  l.foldl (fun m item => mapSet m (keyOf item) item) []

/-- The reconciliation merge of handleBulkUpload / handleAddSymbol:
concatenate the current list with the batch, build a Map keyed by
keyOf, and take Array.from(map.values()). -/
def reconcile (current batch : List IngestedSymbol) : List IngestedSymbol :=
  (buildMap (current ++ batch)).map Prod.snd

theorem mapSet_fst_of_mem {m : List (String × IngestedSymbol)} {k : String}
    (v : IngestedSymbol) (h : k ∈ m.map Prod.fst) :
    (mapSet m k v).map Prod.fst = m.map Prod.fst := by
  induction m with
  | nil => simp at h
  | cons p rest ih =>
      by_cases hk : p.1 = k
      · simp [mapSet, hk]
      · simp only [List.map_cons, List.mem_cons] at h
        rcases h with h | h
        · exact absurd h.symm hk
        · simp [mapSet, hk, ih h]

theorem mapSet_fst_of_not_mem {m : List (String × IngestedSymbol)} {k : String}
    (v : IngestedSymbol) (h : k ∉ m.map Prod.fst) :
    (mapSet m k v).map Prod.fst = m.map Prod.fst ++ [k] := by
  induction m with
  | nil => simp [mapSet]
  | cons p rest ih =>
      simp only [List.map_cons, List.mem_cons] at h
      push_neg at h
      have hk : ¬ p.1 = k := fun hc => h.1 hc.symm
      simp [mapSet, hk, ih h.2]

theorem mapLookup_mapSet (m : List (String × IngestedSymbol))
    (k k' : String) (v : IngestedSymbol) :
    mapLookup (mapSet m k v) k' = if k' = k then some v else mapLookup m k' := by
  induction m with
  | nil =>
      by_cases h : k' = k
      · subst h
        simp [mapSet, mapLookup, List.find?]
      · have hb : (k == k') = false :=
          beq_eq_false_iff_ne.mpr (fun hc => h hc.symm)
        simp [mapSet, mapLookup, List.find?, hb, h]
  | cons p rest ih =>
      obtain ⟨pk, pv⟩ := p
      by_cases hk : pk = k
      · subst hk
        simp only [mapSet, if_pos rfl]
        by_cases h : k' = pk
        · subst h
          simp [mapLookup, List.find?]
        · have hb : (pk == k') = false :=
            beq_eq_false_iff_ne.mpr (fun hc => h hc.symm)
          simp [mapLookup, List.find?, hb, h]
      · simp only [mapSet, if_neg hk]
        by_cases h : k' = pk
        · subst h
          simp [mapLookup, List.find?, hk]
        · have hb : (pk == k') = false :=
            beq_eq_false_iff_ne.mpr (fun hc => h hc.symm)
          simp only [mapLookup, List.find?, hb] at ih ⊢
          simpa [hb] using ih

theorem mem_mapSet {m : List (String × IngestedSymbol)} {k : String}
    {v : IngestedSymbol} {p : String × IngestedSymbol}
    (h : p ∈ mapSet m k v) : p = (k, v) ∨ p ∈ m := by
  induction m with
  | nil =>
      simp only [mapSet, List.mem_singleton] at h
      exact Or.inl h
  | cons q rest ih =>
      by_cases hk : q.1 = k
      · simp only [mapSet, if_pos hk, List.mem_cons] at h
        rcases h with h | h
        · exact Or.inl h
        · exact Or.inr (List.mem_cons_of_mem _ h)
      · simp only [mapSet, if_neg hk, List.mem_cons] at h
        rcases h with h | h
        · exact Or.inr (h ▸ List.mem_cons_self _ _)
        · rcases ih h with h' | h'
          · exact Or.inl h'
          · exact Or.inr (List.mem_cons_of_mem _ h')

theorem buildMap_concat (l : List IngestedSymbol) (x : IngestedSymbol) :
    buildMap (l ++ [x]) = mapSet (buildMap l) (keyOf x) x := by
  simp [buildMap, List.foldl_append]

theorem buildMap_lookup (l : List IngestedSymbol) (k : String) :
    mapLookup (buildMap l) k = (l.filter (fun e => keyOf e == k)).getLast? := by
  induction l using List.reverseRecOn with
  | nil => simp [buildMap, mapLookup]
  | append_singleton l x ih =>
      rw [buildMap_concat, mapLookup_mapSet, List.filter_append]
      by_cases h : keyOf x = k
      · simp [h, List.getLast?_concat]
      · have hb : (keyOf x == k) = false := beq_eq_false_iff_ne.mpr h
        simp [hb, h, Ne.symm h, ih]

theorem buildMap_entry_key (l : List IngestedSymbol) :
    ∀ p ∈ buildMap l, keyOf p.2 = p.1 := by
  induction l using List.reverseRecOn with
  | nil => simp [buildMap]
  | append_singleton l x ih =>
      intro p hp
      rw [buildMap_concat] at hp
      rcases mem_mapSet hp with h | h
      · subst h
        rfl
      · exact ih p h

theorem buildMap_keys_nodup (l : List IngestedSymbol) :
    ((buildMap l).map Prod.fst).Nodup := by
  induction l using List.reverseRecOn with
  | nil => simp [buildMap]
  | append_singleton l x ih =>
      rw [buildMap_concat]
      by_cases h : keyOf x ∈ (buildMap l).map Prod.fst
      · rw [mapSet_fst_of_mem x h]
        exact ih
      · rw [mapSet_fst_of_not_mem x h]
        exact List.Nodup.append ih (List.nodup_singleton _)
          (List.disjoint_singleton.mpr h)

theorem mapLookup_of_mem {m : List (String × IngestedSymbol)}
    (hn : (m.map Prod.fst).Nodup) {p : String × IngestedSymbol}
    (hp : p ∈ m) : mapLookup m p.1 = some p.2 := by
  induction m with
  | nil => simp at hp
  | cons q rest ih =>
      rcases List.mem_cons.mp hp with h | h
      · subst h
        simp [mapLookup, List.find?]
      · rw [List.map_cons] at hn
        have hq : q.1 ∉ (rest.map Prod.fst) := (List.nodup_cons.mp hn).1
        have hne : ¬ q.1 = p.1 := fun hc =>
          hq (hc ▸ List.mem_map_of_mem Prod.fst h)
        have hb : (q.1 == p.1) = false := beq_eq_false_iff_ne.mpr hne
        have htail : (rest.map Prod.fst).Nodup := (List.nodup_cons.mp hn).2
        simp only [mapLookup, List.find?, hb] at ih ⊢
        exact ih htail h

theorem mem_buildMap_snd {l : List IngestedSymbol} {e : IngestedSymbol} :
    e ∈ (buildMap l).map Prod.snd ↔ mapLookup (buildMap l) (keyOf e) = some e := by
  constructor
  · intro h
    rcases List.mem_map.mp h with ⟨p, hp, hsnd⟩
    have hk : keyOf e = p.1 := by
      rw [← hsnd]
      exact buildMap_entry_key l p hp
    rw [hk]
    have := mapLookup_of_mem (buildMap_keys_nodup l) hp
    rw [this, hsnd]
  · intro h
    simp only [mapLookup] at h
    rcases hf : (buildMap l).find? (fun p => p.1 == keyOf e) with _ | p
    · rw [hf] at h
      exact Option.noConfusion h
    · rw [hf] at h
      have hp : p ∈ buildMap l := List.mem_of_find?_eq_some hf
      have hpe : some p.2 = some e := h
      have : p.2 = e := by injection hpe
      exact this ▸ List.mem_map_of_mem Prod.snd hp

/-- The central characterization of the merge: an entry belongs to the
reconciled list exactly when it is the last occurrence of its dedup key
in the concatenation current ++ batch. -/
theorem mem_reconcile {current batch : List IngestedSymbol}
    {e : IngestedSymbol} :
    e ∈ reconcile current batch ↔
      ((current ++ batch).filter (fun f => keyOf f == keyOf e)).getLast? = some e := by
  rw [reconcile, mem_buildMap_snd, buildMap_lookup]

theorem reconcile_keys_nodup (current batch : List IngestedSymbol) :
    ((reconcile current batch).map keyOf).Nodup := by
  have h1 : (reconcile current batch).map keyOf
      = (buildMap (current ++ batch)).map Prod.fst := by
    rw [reconcile, List.map_map]
    exact List.map_congr_left (buildMap_entry_key (current ++ batch))
  rw [h1]
  exact buildMap_keys_nodup (current ++ batch)

theorem filter_key_of_nodup {l : List IngestedSymbol} {e : IngestedSymbol}
    (hn : (l.map keyOf).Nodup) (he : e ∈ l) :
    l.filter (fun f => keyOf f == keyOf e) = [e] := by
  induction l with
  | nil => simp at he
  | cons a rest ih =>
      rw [List.map_cons] at hn
      have hnc := List.nodup_cons.mp hn
      rcases List.mem_cons.mp he with h | h
      · subst h
        have : rest.filter (fun f => keyOf f == keyOf e) = [] := by
          refine List.filter_eq_nil_iff.mpr ?_
          intro b hb
          simp only [beq_iff_eq]
          exact fun hc => hnc.1 (hc ▸ List.mem_map_of_mem keyOf hb)
        simp [List.filter_cons, this]
      · have hne : keyOf a ≠ keyOf e := fun hc =>
          hnc.1 (hc ▸ List.mem_map_of_mem keyOf h)
        have hb : (keyOf a == keyOf e) = false := beq_eq_false_iff_ne.mpr hne
        simp only [List.filter_cons, hb, cond_false]
        exact ih hnc.2 h

theorem mem_of_getLast?_some {α : Type} {l : List α} {a : α}
    (h : l.getLast? = some a) : a ∈ l := by
  rcases List.mem_getLast?_eq_getLast (l := l) (x := a) (by rw [h]; rfl)
    with ⟨hne, hx⟩
  exact hx ▸ List.getLast_mem hne

theorem reconcile_pairwise_keys (current batch : List IngestedSymbol) :
    (reconcile current batch).Pairwise (fun a b => keyOf a ≠ keyOf b) :=
  List.pairwise_map.mp (reconcile_keys_nodup current batch)

theorem length_filter_le_one_of_pairwise {α : Type} {l : List α} {p : α → Bool}
    (h : l.Pairwise (fun a b => ¬ (p a ∧ p b))) : (l.filter p).length ≤ 1 := by
  induction l with
  | nil => simp
  | cons a rest ih =>
      have hp := List.pairwise_cons.mp h
      by_cases ha : p a
      · have hrest : rest.filter p = [] :=
          List.filter_eq_nil_iff.mpr (fun b hb hbp => hp.1 b hb ⟨ha, hbp⟩)
        simp [List.filter_cons, ha, hrest]
      · have hb : p a = false := Bool.eq_false_iff.mpr ha
        simp only [List.filter_cons, hb, cond_false]
        exact ih hp.2

theorem key_eq_of_fields {a b : IngestedSymbol}
    (hs : a.symbol = b.symbol) (hx : a.exchange = b.exchange) :
    keyOf a = keyOf b := by
  rw [keyOf, keyOf, hs, hx]

theorem mem_reconcile_reconcile {L B : List IngestedSymbol}
    {e : IngestedSymbol} :
    e ∈ reconcile (reconcile L B) B ↔ e ∈ reconcile L B := by
  constructor
  · intro h
    have hc := mem_reconcile.mp h
    rw [List.filter_append] at hc
    by_cases hB : B.filter (fun f => keyOf f == keyOf e) = []
    · rw [hB, List.append_nil] at hc
      exact (List.mem_filter.mp (mem_of_getLast?_some hc)).1
    · rw [List.getLast?_append_of_ne_nil _ hB] at hc
      apply mem_reconcile.mpr
      rw [List.filter_append, List.getLast?_append_of_ne_nil _ hB]
      exact hc
  · intro h
    have hc := mem_reconcile.mp h
    rw [List.filter_append] at hc
    apply mem_reconcile.mpr
    rw [List.filter_append]
    by_cases hB : B.filter (fun f => keyOf f == keyOf e) = []
    · rw [hB, List.append_nil] at hc ⊢
      rw [filter_key_of_nodup (reconcile_keys_nodup L B) h]
      rfl
    · rw [List.getLast?_append_of_ne_nil _ hB] at hc ⊢
      exact hc

/-- C1: for every current list and batch, the merge performed by
handleBulkUpload and handleAddSymbol keeps at most one entry per
(symbol, exchange) key; an entry is in the result exactly when it is the
last occurrence of its dedup key in the concatenation current ++ batch
(the later occurrence overwrites the earlier); and merging the two
AAPL/NASDAQ entries carrying descA then descB into an empty list yields
exactly the single entry carrying descB. -/
theorem reconcile_merge_overwrite_spec :
    (∀ current batch : List IngestedSymbol, ∀ e : IngestedSymbol,
        e ∈ reconcile current batch ↔
          ((current ++ batch).filter (fun f => keyOf f == keyOf e)).getLast?
            = some e)
    ∧ (∀ current batch : List IngestedSymbol, ∀ s x : String,
        ((reconcile current batch).filter
            (fun e => e.symbol == s && e.exchange == x)).length ≤ 1)
    ∧ reconcile []
          [⟨"AAPL", "NASDAQ", "descA", ""⟩, ⟨"AAPL", "NASDAQ", "descB", ""⟩]
        = [⟨"AAPL", "NASDAQ", "descB", ""⟩] := by
  refine ⟨fun current batch e => mem_reconcile,
    fun current batch s x => ?_, by decide⟩
  apply length_filter_le_one_of_pairwise
  refine List.Pairwise.imp ?_ (reconcile_pairwise_keys current batch)
  intro a b hne hand
  obtain ⟨ha, hb⟩ := hand
  simp only [Bool.and_eq_true, beq_iff_eq] at ha hb
  exact hne (key_eq_of_fields (ha.1.trans hb.1.symm) (ha.2.trans hb.2.symm))

/-- C2: after any client-side merge (manual add or bulk upload), the
resulting ingestion list has at most one entry per (symbol, exchange)
key: any two entries at distinct positions differ in symbol or
exchange. -/
theorem reconcile_unique_key_invariant (current batch : List IngestedSymbol) :
    (reconcile current batch).Pairwise
      (fun a b => ¬ (a.symbol = b.symbol ∧ a.exchange = b.exchange)) := by
  refine List.Pairwise.imp ?_ (reconcile_pairwise_keys current batch)
  intro a b hne hand
  exact hne (key_eq_of_fields hand.1 hand.2)

/-- C3: the merge is idempotent in its batch argument: merging batch B
into L and then merging the same B into the result yields the same set
(a permutation of the single merge), with no growth in length and no
duplicate keys. -/
theorem reconcile_idempotent (L B : List IngestedSymbol) :
    List.Perm (reconcile (reconcile L B) B) (reconcile L B)
    ∧ (reconcile (reconcile L B) B).length = (reconcile L B).length
    ∧ ((reconcile (reconcile L B) B).map keyOf).Nodup := by
  have n2 := reconcile_keys_nodup (reconcile L B) B
  have n1 := reconcile_keys_nodup L B
  have hperm : List.Perm (reconcile (reconcile L B) B) (reconcile L B) :=
    (List.perm_ext_iff_of_nodup (List.Nodup.of_map keyOf n2)
        (List.Nodup.of_map keyOf n1)).mpr
      (fun e => mem_reconcile_reconcile)
  exact ⟨hperm, hperm.length_eq, n2⟩

/-- C10: the dedup key is the string concatenation symbol-exchange, so
the logically distinct entries (symbol A, exchange B-C) and
(symbol A-B, exchange C) share the key A-B-C; merging a batch holding
both yields only the later entry, silently dropping the earlier one. -/
theorem dedup_key_collision :
    keyOf ⟨"A", "B-C", "dOld", ""⟩ = keyOf ⟨"A-B", "C", "dNew", ""⟩
    ∧ (IngestedSymbol.mk "A" "B-C" "dOld" "").symbol
        ≠ (IngestedSymbol.mk "A-B" "C" "dNew" "").symbol
    ∧ reconcile [] [⟨"A", "B-C", "dOld", ""⟩, ⟨"A-B", "C", "dNew", ""⟩]
        = [⟨"A-B", "C", "dNew", ""⟩] := by
  refine ⟨by decide, by decide, by decide⟩

/-- The whitespace characters stripped by the JS trim used here. -/
def jsIsWhitespace (c : Char) : Bool :=
  c = ' ' || c = '\t' || c = '\n' || c = '\r' || c = '\x0b' || c = '\x0c'

/-- JS String.prototype.trim: strip whitespace from both ends. -/
def jsTrim (s : String) : String :=
  String.mk
    (((s.data.dropWhile jsIsWhitespace).reverse.dropWhile jsIsWhitespace).reverse)

/-- JS String.prototype.toUpperCase on the ASCII range. -/
def jsToUpper (s : String) : String :=
  String.mk (s.data.map Char.toUpper)

/-- JS String.prototype.split with a one-character separator, acting on
the character list: splitting never yields an empty list of parts. -/
def splitChars (sep : Char) : List Char → List (List Char)
  | [] => [[]]
  | c :: rest =>
      match splitChars sep rest with
      | h :: t => if c = sep then [] :: h :: t else (c :: h) :: t
      | [] => if c = sep then [[], []] else [[c]]

/-- JS String.prototype.split with a one-character separator. -/
def jsSplit (sep : Char) (s : String) : List String :=
  (splitChars sep s.data).map String.mk

/-- The record pushed by parseSymbols in BulkUploadModal: the parsed
symbol code and exchange code. -/
structure ParsedSymbol where
  symbol : String
  exchange : String
deriving DecidableEq, Repr

/-- parseSymbols from BulkUploadModal: trim the whole input, split it
into lines, split every line on commas and trim each field; when the
first two fields are both non-empty, push the pair with the symbol
upper-cased; every other line is dropped silently. -/
def parseSymbols (text : String) : List ParsedSymbol :=
  (jsSplit '\n' (jsTrim text)).foldl
    (fun acc line =>
      match (jsSplit ',' line).map jsTrim with
      | s :: ex :: _ =>
          if s = "" ∨ ex = "" then acc else acc ++ [⟨jsToUpper s, ex⟩]
      | _ => acc) []

/-- The per-line behavior of parseSymbols, factored out: take the first
two comma-separated fields, trim them, require both non-empty, and
upper-case the symbol code. -/
def parseLineFields (line : String) : Option ParsedSymbol :=
  match (jsSplit ',' line).map jsTrim with
  | s :: ex :: _ =>
      if s = "" ∨ ex = "" then none else some ⟨jsToUpper s, ex⟩
  | _ => none

/-- Joins fields back with commas; used to express a split at the first
comma only. -/
def joinComma : List String → String
  | [] => ""
  | [s] => s
  | s :: rest => s ++ "," ++ joinComma rest

/-- Modelled from the claim's wording, for comparison with the code:
each line is split on the FIRST comma into symbol and exchange, both
trimmed, the symbol upper-cased, and lines missing either field are
dropped. -/
def parseSymbolsFirstComma (text : String) : List ParsedSymbol :=
  (jsSplit '\n' (jsTrim text)).foldl
    (fun acc line =>
      match jsSplit ',' line with
      | s :: r :: rest =>
          if jsTrim s = "" ∨ jsTrim (joinComma (r :: rest)) = "" then acc
          else acc ++ [⟨jsToUpper (jsTrim s), jsTrim (joinComma (r :: rest))⟩]
      | _ => acc) []

theorem foldl_filterMap_aux {α β : Type} (g : List β → α → List β)
    (f : α → Option β) (hg : ∀ acc a, g acc a = acc ++ (f a).toList) :
    ∀ (l : List α) (acc : List β), l.foldl g acc = acc ++ l.filterMap f := by
  intro l
  induction l with
  | nil => simp
  | cons a rest ih =>
      intro acc
      rw [List.foldl_cons, hg, ih, List.filterMap_cons]
      cases f a <;> simp

/-- C4 counterexample: the code does not split a line on the first comma
only; on the line A,B,C it takes the first two comma-separated fields
and ignores the rest, producing exchange B, whereas a split on the
first comma would produce exchange B,C. -/
theorem parseSymbols_first_comma_counterexample :
    parseSymbols "A,B,C" = [⟨"A", "B"⟩]
    ∧ parseSymbolsFirstComma "A,B,C" = [⟨"A", "B,C"⟩]
    ∧ parseSymbols "A,B,C" ≠ parseSymbolsFirstComma "A,B,C" := by
  refine ⟨by decide, by decide, by decide⟩

/-- C4 as amended: parseSymbols splits every line on commas and keeps
the first two fields as (symbol, exchange), ignoring any further
fields; both fields are trimmed, the symbol is upper-cased, and lines
missing either of the first two fields are silently dropped; the
example input parses as the claim states. -/
theorem parseSymbols_fields_spec :
    (∀ text : String,
        parseSymbols text = (jsSplit '\n' (jsTrim text)).filterMap parseLineFields)
    ∧ parseSymbols "AAPL,NASDAQ\nbadline\nMSFT, NASDAQ \n"
        = [⟨"AAPL", "NASDAQ"⟩, ⟨"MSFT", "NASDAQ"⟩] := by
  constructor
  · intro text
    rw [parseSymbols]
    refine foldl_filterMap_aux _ parseLineFields ?_ _ []
    intro acc line
    rw [parseLineFields]
    rcases (jsSplit ',' line).map jsTrim with _ | ⟨s, _ | ⟨ex, rest⟩⟩
    · simp
    · simp
    · by_cases h : s = "" ∨ ex = ""
      · simp [h]
      · simp [h]
  · decide

/-- The state the withAuth wrapper ends in after its verification
effect: skipped on the login route, authorized, or redirecting to
login. -/
inductive GateOutcome
  | loginRoute
  | authorized
  | redirecting
deriving DecidableEq, Repr

/-- Observable result of the verifyToken effect in withAuth: the final
gate state, whether the current-user request was issued, whether the
stored credential was removed, and the final isLoading flag. -/
structure GateResult where
  outcome : GateOutcome
  networkCalled : Bool
  tokenRemoved : Bool
  isLoading : Bool
deriving DecidableEq, Repr

/-- The verifyToken effect of withAuth: on the login route only stop
loading; with no stored token push to login without any network call,
leaving isLoading true; with a token call getCurrentUser once and on
success stop loading, while on any failure remove the token and push to
login. backendAccepts stands for the outcome of that one call. -/
def verifyToken (pathname : String) (token : Option String)
    (backendAccepts : Bool) : GateResult :=
  if pathname = "/login" then
    ⟨GateOutcome.loginRoute, false, false, false⟩
  else
    match token with
    | none => ⟨GateOutcome.redirecting, false, false, true⟩
    | some _ =>
        if backendAccepts then ⟨GateOutcome.authorized, true, false, false⟩
        else ⟨GateOutcome.redirecting, true, true, true⟩

/-- What the wrapper renders. -/
inductive Rendered
  | loadingIndicator
  | protectedContent
deriving DecidableEq, Repr

/-- The wrapper renders the loading indicator while isLoading holds and
the wrapped content otherwise. -/
def renderGate (r : GateResult) : Rendered :=
  if r.isLoading then Rendered.loadingIndicator else Rendered.protectedContent

/-- C5: whenever the identity-verification call fails with a stored
credential on a protected route, the gate removes the credential,
transitions to the redirecting state, and never renders the protected
content. -/
theorem authGate_failure_clears_and_redirects
    (pathname : String) (t : String) (h : pathname ≠ "/login") :
    (verifyToken pathname (some t) false).tokenRemoved = true
    ∧ (verifyToken pathname (some t) false).outcome = GateOutcome.redirecting
    ∧ renderGate (verifyToken pathname (some t) false)
        ≠ Rendered.protectedContent := by
  simp [verifyToken, renderGate, h]

theorem authGate_failure_clears_and_redirects_witness :
    (verifyToken "/" (some "tok") false).tokenRemoved = true
    ∧ (verifyToken "/" (some "tok") false).outcome = GateOutcome.redirecting
    ∧ renderGate (verifyToken "/" (some "tok") false)
        ≠ Rendered.protectedContent :=
  authGate_failure_clears_and_redirects "/" "tok" (by decide)

/-- C6: with no stored credential on a protected route, the gate goes
directly to the redirecting state, issues no network call whatever the
backend would answer, and renders only the loading indicator. -/
theorem authGate_no_token_no_network
    (pathname : String) (backendAccepts : Bool) (h : pathname ≠ "/login") :
    verifyToken pathname none backendAccepts
      = ⟨GateOutcome.redirecting, false, false, true⟩
    ∧ renderGate (verifyToken pathname none backendAccepts)
        = Rendered.loadingIndicator := by
  simp [verifyToken, renderGate, h]

theorem authGate_no_token_no_network_witness :
    verifyToken "/" none true = ⟨GateOutcome.redirecting, false, false, true⟩
    ∧ renderGate (verifyToken "/" none true) = Rendered.loadingIndicator :=
  authGate_no_token_no_network "/" true (by decide)

/-- The debounce interval passed to useDebounce in SymbolSearch, in
milliseconds. -/
def debounceDelay : Nat := 500

/-- Trailing-edge debounce over input events (time, value) with
strictly increasing times, as useDebounce behaves: every change
schedules an update at its time plus the delay, and a following change
arriving strictly earlier cancels it. The result lists the updates that
actually fire. -/
def fireList : List (Nat × String) → List (Nat × String)
  | [] => []
  | (t, v) :: rest =>
      match rest with
      | [] => [(t + debounceDelay, v)]
      | (t2, _) :: _ =>
          if t + debounceDelay ≤ t2 then (t + debounceDelay, v) :: fireList rest
          else fireList rest

/-- The debounced search string at a moment: the value of the last
update fired no later than now, or the initial empty string. -/
def debouncedAt (events : List (Nat × String)) (now : Nat) : String :=
  ((((fireList events).filter (fun f => f.1 ≤ now)).getLast?).map Prod.snd).getD ""

/-- The parameter object sent by SymbolSearch to useSearchSymbols. -/
structure SearchParams where
  search_string : String
  exchange : String
  security_type : String
deriving DecidableEq, Repr

/-- useSearchSymbols: the query issues its request only when the
enabled flag holds; otherwise no request is made and no data
returned. -/
def useSearchSymbols (params : SearchParams) (enabled : Bool) :
    Option SearchParams :=
  if enabled then some params else none

/-- SymbolSearch wiring: the search is enabled exactly when the
debounced search string is longer than 2 characters, and the request
carries the debounced string with the filter selections. -/
def issuedSearch (events : List (Nat × String)) (exchange securityType : String)
    (now : Nat) : Option SearchParams :=
  useSearchSymbols ⟨debouncedAt events now, exchange, securityType⟩
    (decide ((debouncedAt events now).length > 2))

/-- Typing A, then AA, then AAP at 100ms intervals. -/
def typingTrace : List (Nat × String) := [(0, "A"), (100, "AA"), (200, "AAP")]

/-- C7: no search request is ever issued while the debounced search
text has length at most 2; for the trace typing AAP (length 3,
finishing at 200ms), no request is issued before the 500ms debounce
interval has elapsed, and from that moment the request for AAP is
issued. -/
theorem searchGate_debounce_spec :
    (∀ (events : List (Nat × String)) (exchange securityType : String)
        (now : Nat), (debouncedAt events now).length ≤ 2 →
          issuedSearch events exchange securityType now = none)
    ∧ (∀ (exchange securityType : String) (now : Nat),
        now < 200 + debounceDelay →
          issuedSearch typingTrace exchange securityType now = none)
    ∧ (∀ (exchange securityType : String) (now : Nat),
        200 + debounceDelay ≤ now →
          issuedSearch typingTrace exchange securityType now
            = some ⟨"AAP", exchange, securityType⟩) := by
  refine ⟨?_, ?_, ?_⟩
  · intro events exchange securityType now h
    have hlt : ¬ ((debouncedAt events now).length > 2) := Nat.not_lt.mpr h
    simp [issuedSearch, useSearchSymbols, hlt]
  · intro exchange securityType now hnow
    rw [show (200 + debounceDelay) = 700 from rfl] at hnow
    have hne : ¬ (700 ≤ now) := by omega
    have hf : fireList typingTrace = [(700, "AAP")] := by decide
    have hd : debouncedAt typingTrace now = "" := by
      simp [debouncedAt, hf, List.filter_cons, hne]
    simp [issuedSearch, useSearchSymbols, hd]
  · intro exchange securityType now hnow
    rw [show (200 + debounceDelay) = 700 from rfl] at hnow
    have hf : fireList typingTrace = [(700, "AAP")] := by decide
    have hd : debouncedAt typingTrace now = "AAP" := by
      simp [debouncedAt, hf, List.filter_cons, hnow]
    simp only [issuedSearch, useSearchSymbols, hd]
    have hlen : 2 < "AAP".length := by decide
    simp [hlen]

theorem searchGate_debounce_spec_witness :
    issuedSearch [] "" "" 0 = none
    ∧ issuedSearch typingTrace "NASDAQ" "" 400 = none
    ∧ issuedSearch typingTrace "NASDAQ" "" 700
        = some ⟨"AAP", "NASDAQ", ""⟩ :=
  ⟨searchGate_debounce_spec.1 [] "" "" 0 (by decide),
   searchGate_debounce_spec.2.1 "NASDAQ" "" 400 (by decide),
   searchGate_debounce_spec.2.2 "NASDAQ" "" 700 (by decide)⟩

/-- An outbound HTTP request as built by the axios client: method, path
and header list. -/
structure Request where
  method : String
  path : String
  headers : List (String × String)
deriving DecidableEq, Repr

/-- The request interceptor registered on the shared axios instance:
read the Token Store and, when a token is present, set the
Authorization header to Bearer followed by the token; otherwise pass
the request through unchanged. -/
def addAuthHeader (token : Option String) (r : Request) : Request :=
  match token with
  | some t =>
      { r with headers := r.headers ++ [("Authorization", "Bearer " ++ t)] }
  | none => r

/-- The endpoint functions the API client module exposes. -/
inductive Endpoint
  | searchSymbols
  | getIngestedSymbols
  | addSymbol
  | removeIngestedSymbol
  | setSymbols
  | getSystemConfig
  | setSystemConfig
  | loginUser
  | getCurrentUser
deriving DecidableEq, Repr

/-- The request each endpoint function hands to the axios instance
before interception: its method, path, and the headers the call itself
sets (only the login endpoint sets a Content-Type). -/
def baseRequest : Endpoint → Request
  | Endpoint.searchSymbols => ⟨"GET", "/search_symbols/", []⟩
  | Endpoint.getIngestedSymbols => ⟨"GET", "/get_ingestion_symbols/", []⟩
  | Endpoint.addSymbol => ⟨"POST", "/add_ingestion_symbol/", []⟩
  | Endpoint.removeIngestedSymbol => ⟨"POST", "/remove_ingestion_symbol/", []⟩
  | Endpoint.setSymbols => ⟨"POST", "/set_ingestion_symbols/", []⟩
  | Endpoint.getSystemConfig => ⟨"GET", "/get_system_config/", []⟩
  | Endpoint.setSystemConfig => ⟨"POST", "/set_system_config/", []⟩
  | Endpoint.loginUser =>
      ⟨"POST", "/token", [("Content-Type", "application/x-www-form-urlencoded")]⟩
  | Endpoint.getCurrentUser => ⟨"GET", "/users/me/", []⟩

/-- Every endpoint function issues its request through the shared
instance, so the interceptor runs on each of them. -/
def apiRequest (token : Option String) (e : Endpoint) : Request :=
  addAuthHeader token (baseRequest e)

/-- C8: every request built by any endpoint function passes through the
interceptor: it carries an Authorization header exactly when the Token
Store holds a token, in which case the value is Bearer followed by that
token; with no token stored, the request is unchanged and carries no
Authorization header. -/
theorem api_auth_header_iff :
    (∀ (e : Endpoint) (token : Option String) (v : String),
        ("Authorization", v) ∈ (apiRequest token e).headers
          ↔ ∃ t, token = some t ∧ v = "Bearer " ++ t)
    ∧ ∀ e : Endpoint, apiRequest none e = baseRequest e := by
  have hbase : ∀ (e : Endpoint) (v : String),
      ("Authorization", v) ∉ (baseRequest e).headers := by
    intro e v
    cases e <;> simp [baseRequest]
  constructor
  · intro e token v
    cases token with
    | none =>
        simp only [apiRequest, addAuthHeader]
        constructor
        · intro h
          exact absurd h (hbase e v)
        · rintro ⟨t, ht, _⟩
          exact Option.noConfusion ht
    | some t =>
        simp only [apiRequest, addAuthHeader, List.mem_append,
          List.mem_singleton]
        constructor
        · intro h
          rcases h with h | h
          · exact absurd h (hbase e v)
          · exact ⟨t, rfl, congrArg Prod.snd h⟩
        · rintro ⟨t2, ht2, hv⟩
          injection ht2 with ht2
          subst ht2
          exact Or.inr (by rw [hv])
  · intro e
    rfl

/-- A react-query cache key: a list of string segments. -/
abbrev QueryKey := List String

/-- The query cache: for every key, the fresh cached payload when one
exists. -/
def Cache := QueryKey → Option String

/-- invalidateQueries with a key filter: every query whose key extends
the filter key is marked stale, discarding its cached value for the
purpose of the next read. -/
def invalidate (c : Cache) (filt : QueryKey) : Cache :=
  fun k => if filt.isPrefixOf k then none else c k

/-- The mutations declared by the data-access hooks useAddSymbol,
useRemoveSymbol, useSetSymbols and useSetSystemConfig. -/
inductive MutationKind
  | addSymbol
  | removeSymbol
  | setSymbols
  | setSystemConfig
deriving DecidableEq, Repr

/-- The cache keys each mutation invalidates in its onSuccess
callback, exactly as the hooks declare them. -/
def invalidatedKeys : MutationKind → List QueryKey
  | MutationKind.addSymbol => [["ingestedSymbols"]]
  | MutationKind.removeSymbol => [["ingestedSymbols"]]
  | MutationKind.setSymbols => [["ingestedSymbols"]]
  | MutationKind.setSystemConfig => [["systemConfig"]]

/-- Running a mutation's onSuccess callback over the cache. -/
def onSuccess (m : MutationKind) (c : Cache) : Cache :=
  (invalidatedKeys m).foldl invalidate c

/-- A read refetches exactly when no fresh cached value exists for its
key. -/
def readRefetches (c : Cache) (k : QueryKey) : Bool :=
  (c k).isNone

/-- C9: each successful mutation invalidates exactly its declared cache
keys: the three ingestion-list mutations declare the ingestedSymbols
key and the config write declares the systemConfig key; after the
onSuccess callback the next read of a declared key refetches instead of
returning previously cached data, while every key not covered by the
declared filters is untouched. -/
theorem mutation_invalidation_spec :
    invalidatedKeys MutationKind.addSymbol = [["ingestedSymbols"]]
    ∧ invalidatedKeys MutationKind.removeSymbol = [["ingestedSymbols"]]
    ∧ invalidatedKeys MutationKind.setSymbols = [["ingestedSymbols"]]
    ∧ invalidatedKeys MutationKind.setSystemConfig = [["systemConfig"]]
    ∧ (∀ (m : MutationKind) (c : Cache) (k : QueryKey),
        k ∈ invalidatedKeys m → readRefetches (onSuccess m c) k = true)
    ∧ (∀ (m : MutationKind) (c : Cache) (k : QueryKey),
        (∀ filt ∈ invalidatedKeys m, filt.isPrefixOf k = false) →
          onSuccess m c k = c k) := by
  refine ⟨rfl, rfl, rfl, rfl, ?_, ?_⟩
  · intro m c k hk
    cases m <;>
      · simp only [invalidatedKeys, List.mem_singleton] at hk
        subst hk
        simp [onSuccess, invalidatedKeys, invalidate, readRefetches,
          List.isPrefixOf]
  · intro m c k hf
    cases m <;>
      · simp only [invalidatedKeys, List.mem_singleton, forall_eq] at hf
        simp [onSuccess, invalidatedKeys, invalidate, hf]

theorem mutation_invalidation_spec_witness :
    readRefetches
        (onSuccess MutationKind.addSymbol (fun _ => some "cached"))
        ["ingestedSymbols"] = true
    ∧ onSuccess MutationKind.setSystemConfig (fun _ => some "cached")
        ["ingestedSymbols"] = some "cached" :=
  ⟨mutation_invalidation_spec.2.2.2.2.1 MutationKind.addSymbol
      (fun _ => some "cached") ["ingestedSymbols"] (by decide),
   mutation_invalidation_spec.2.2.2.2.2 MutationKind.setSystemConfig
      (fun _ => some "cached") ["ingestedSymbols"] (by decide)⟩
